import Mathlib

/-!
Verification development for the DOCX→MDX converter (`src/index.js`).

The file embeds, as executable Lean functions over `List Char` / `String`:
  * the four regex rewrites of `postProcessForMdx` (lines 101–114),
  * `addMdxFrontmatter` (lines 116–127),
  * the custom image render rule of `configureTurndown` (lines 29–43),
  * the Node `path` helpers the converter uses (`basename`, `extname`,
    `dirname`, `join`) restricted to the shapes the converter feeds them,
  * `convertDocxToMdx` (lines 54–99) and `convertDirectory` (lines 129–171),
    with the filesystem / mammoth / turndown collaborators abstracted into an
    environment record and the performed side effects recorded in a trace.

Each regex `String.prototype.replace` call is embedded as a deterministic
left-to-right scanner that mirrors the JavaScript regex engine's behaviour
(leftmost match, greedy quantifiers with backtracking, `/g` resumption after
the end of each match, `/m` line anchors).  The derivation of each scanner
from its regex is documented at the definition.

The scanners model line structure with `'\n'` as the only line terminator
and `isWS` as the whitespace class.  The JavaScript engine additionally
treats `'\r'`, U+2028 and U+2029 as line terminators — `.` does not match
them and the `/m` anchors `^`/`$` fire at them — and accepts further
non-ASCII whitespace in `\s`; the scanners do not track these characters.
The heading theorem (claim C4), the one claim whose statement quantifies
over text in which these characters could change the engine's line
structure, is therefore explicitly scoped to `plainChar` inputs, on which
the two semantics coincide.
-/

namespace DocxToMdx

/-- JavaScript `\s` (whitespace class), restricted to the ASCII whitespace
characters; the Unicode space characters (` `, `﻿`, category Zs)
that JavaScript also accepts play no role in any claim and are omitted. -/
def isWS (c : Char) : Bool :=
  c == ' ' || c == '\t' || c == '\n' || c == '\r' || c == '\x0b' || c == '\x0c'

/-- `c` is "plain" for the embedding: not a carriage return, not U+2028 or
U+2029 (line terminators the scanners do not treat as line breaks), and not
one of the non-ASCII whitespace characters of JavaScript `\s` that `isWS`
omits.  On plain text `'\n'` is the engine's only line terminator, `.`
matches exactly the non-`'\n'` characters, and `isWS` agrees with `\s`, so
the scanners coincide with the engine; the heading theorem (claim C4) is
scoped to plain inputs. -/
def plainChar (c : Char) : Bool :=
  !(c == '\r') && !(c == '\u00A0') && !(c == '\u1680')
    && !('\u2000' ≤ c && c ≤ '\u200A') && !(c == '\u2028') && !(c == '\u2029')
    && !(c == '\u202F') && !(c == '\u205F') && !(c == '\u3000') && !(c == '\uFEFF')

/-- JavaScript `\w`: `[A-Za-z0-9_]`. -/
def isWordChar (c : Char) : Bool :=
  ('a' ≤ c && c ≤ 'z') || ('A' ≤ c && c ≤ 'Z') || ('0' ≤ c && c ≤ '9') || c == '_'

/-- The backtick character (written by code so that no backtick appears
outside a string in this file). -/
def btick : Char := '\x60'

/-- JavaScript `String.prototype.startsWith`, over the character lists. -/
def jsStartsWith (s pre : String) : Bool := pre.data.isPrefixOf s.data

/-- JavaScript `String.prototype.endsWith`, over the character lists. -/
def jsEndsWith (s suf : String) : Bool := suf.data.isSuffixOf s.data

/-- `markdown.replace(/\n{3,}/g, '\n\n')` — step 1 of `postProcessForMdx`
("Fix multiple empty lines").  `n` counts the newlines of the run currently
being read; a finished run of three or more newlines is emitted as exactly
two, shorter runs are emitted unchanged. -/
def collapseNLAux : Nat → List Char → List Char
  | n, [] => if n ≥ 3 then ['\n', '\n'] else List.replicate n '\n'
  | n, c :: rest =>
    if c == '\n' then collapseNLAux (n + 1) rest
    else (if n ≥ 3 then ['\n', '\n'] else List.replicate n '\n') ++ c :: collapseNLAux 0 rest

def collapseNLChars (xs : List Char) : List Char := collapseNLAux 0 xs

/-- The match attempt of `/```(\w+)?\n\n/` at the current position.  The
engine tries three literal backticks, then the greedy optional word run
`(\w+)?` (which, being followed by the literal `\n`, can only be the
maximal word run — shorter alternatives leave a word character where `\n`
is required, and the empty alternative succeeds only when the maximal run
is already empty), then two literal newlines.  On success, returns the
captured word run `$1` and the input remaining after the match. -/
def fenceSplit (xs : List Char) : Option (List Char × List Char) :=
  match xs with
  | c1 :: c2 :: c3 :: rest =>
    if c1 == btick && c2 == btick && c3 == btick then
      match rest.dropWhile isWordChar with
      | '\n' :: '\n' :: r => some (rest.takeWhile isWordChar, r)
      | _ => none
    else none
  | _ => none

/-- `markdown.replace(/```(\w+)?\n\n/g, '```$1\n')` — step 2 of
`postProcessForMdx` ("Fix code blocks").  On failure the scan advances one
character; on success the match is replaced by the backticks, the word run
and a single newline, and the scan resumes after the match.  Fuel decreases
on every recursive call; each call consumes at least one input character, so
`fuel = length` suffices and the fuel-exhausted branch is unreachable. -/
def fenceGo : Nat → List Char → List Char
  | 0, xs => xs
  | _ + 1, [] => []
  | n + 1, c :: rest =>
    match fenceSplit (c :: rest) with
    | some (w, r) => btick :: btick :: btick :: (w ++ '\n' :: fenceGo n r)
    | none => c :: fenceGo n rest

def fenceChars (xs : List Char) : List Char := fenceGo xs.length xs

/-- The characters of `v` strictly after the last `'\n'` of `v`
(all of `v` when `v` has no newline). -/
def afterLastNL (v : List Char) : List Char :=
  (v.reverse.takeWhile (fun c => !(c == '\n'))).reverse

/-- The match attempt of `/^(\s*)-\s*\n/` at an anchor position.  The
greedy `(\s*)` must be the maximal whitespace run (backtracking cannot
help, since the following literal `'-'` is not whitespace), then the
literal `'-'`, then `\s*\n`: the greedy `\s*` backtracks until the final
literal `'\n'` lands on the last newline of the maximal whitespace run
after the `'-'` — so the match succeeds iff that run contains a newline,
and it consumes the run up to and including its last newline.  On success,
returns the captured `$1` and the input remaining after the match. -/
def listSplit (xs : List Char) : Option (List Char × List Char) :=
  match xs.dropWhile isWS with
  | '-' :: r2 =>
    if (r2.takeWhile isWS).contains '\n' then
      some (xs.takeWhile isWS, afterLastNL (r2.takeWhile isWS) ++ r2.dropWhile isWS)
    else none
  | _ => none

/-- `markdown.replace(/^(\s*)-\s*\n/gm, '$1- ')` — step 3 of
`postProcessForMdx` ("Fix list formatting").  `atStart` is true exactly at
the `/m` anchor positions (start of input, or just after a `'\n'`).  The
replacement keeps `$1` and the `'-'` and emits one space; the scan resumes
right after the consumed newline, an anchor position. -/
def listGo : Nat → Bool → List Char → List Char
  | 0, _, xs => xs
  | _ + 1, _, [] => []
  | n + 1, atStart, c :: rest =>
    if atStart then
      match listSplit (c :: rest) with
      | some (w, resume) => w ++ '-' :: ' ' :: listGo n true resume
      | none => c :: listGo n (c == '\n') rest
    else c :: listGo n (c == '\n') rest

def listChars (xs : List Char) : List Char := listGo xs.length true xs

/-- Backtracking inside `\s+(.+)$` when the whitespace run `W` after the
heading markers extends to the end of the input: `\s+` releases characters
from the end of `W` until `(.+)` can match.  The first success takes the
largest `j` with `1 ≤ j < |W|` and `W[j] ≠ '\n'`; then `(.+)` is the single
character `W[j]` (everything after it in `W` is newlines, at which `.` and
the match stop).  Returns that character and the all-newline remainder of
`W` after it, or `none` when no such `j` exists (then the heading line does
not match). -/
def headBacktrack (W : List Char) : Option (Char × List Char) :=
  match W.reverse.dropWhile (fun c => c == '\n') with
  | c :: _ :: _ =>
    -- `c` is the last non-newline character of `W`; the second pattern entry
    -- witnesses that `c` is not the first character of `W` (the `\s+` must
    -- keep at least one character).
    some (c, (W.reverse.takeWhile (fun c => c == '\n')).reverse)
  | _ => none

/-- The match attempt of `/^(#{1,6})\s+(.+)$/` at an anchor position.  The
greedy `(#{1,6})` must take the whole run of `'#'` characters (shorter
alternatives leave a `'#'` where `\s` is required), failing when the run is
longer than six.  Then `\s+` greedily takes the maximal whitespace run `W`
(which may cross newlines; it must be nonempty).  Since `W` is maximal, the
character after it is never whitespace: if one exists, `(.+)$` matches the
remainder of its line (case A); if `W` reaches the end of the input, `\s+`
backtracks inside `W` (`headBacktrack`, case B).  On success, returns
`$1`, `$2`, and the input remaining after the match.

`(.+)` and the `/m` anchor `$` are modeled with `'\n'` as the only line
terminator: the engine also stops `.` at, and matches `$` before, `'\r'`,
U+2028 and U+2029, so on text containing those characters the captured
`$2` here wrongly swallows content the engine leaves unconsumed.  The
function is faithful on `plainChar` text, and the heading theorem (claim
C4) is scoped accordingly. -/
def headSplit (xs : List Char) : Option (List Char × List Char × List Char) :=
  if (xs.takeWhile (fun d => d == '#')).length == 0
      || 6 < (xs.takeWhile (fun d => d == '#')).length
      || ((xs.dropWhile (fun d => d == '#')).takeWhile isWS).isEmpty then none
  else
    match (xs.dropWhile (fun d => d == '#')).dropWhile isWS with
    | d :: r2 =>
      some (xs.takeWhile (fun d => d == '#'), (d :: r2).takeWhile (fun e => !(e == '\n')),
        (d :: r2).dropWhile (fun e => !(e == '\n')))
    | [] =>
      match headBacktrack ((xs.dropWhile (fun d => d == '#')).takeWhile isWS) with
      | some (e, suf) => some (xs.takeWhile (fun d => d == '#'), [e], suf)
      | none => none

/-- `markdown.replace(/^(#{1,6})\s+(.+)$/gm, '$1 $2')` — step 4 of
`postProcessForMdx` ("Fix headings with extra spaces").  The replacement
emits the marker run, a single space and `$2`; the scan resumes after
`$2`, never an anchor position.

The anchor flag carried along is `c == '\n'`: the engine's `/m` anchor
`^` also fires just after `'\r'`, U+2028 and U+2029, so on text containing
those characters the scan misses heading rewrites the engine performs.
The scan is faithful on `plainChar` text, and the heading theorem (claim
C4) is scoped accordingly. -/
def headGo : Nat → Bool → List Char → List Char
  | 0, _, xs => xs
  | _ + 1, _, [] => []
  | n + 1, atStart, c :: rest =>
    if atStart && c == '#' then
      match headSplit (c :: rest) with
      | some (hs, s2, resume) => hs ++ ' ' :: s2 ++ headGo n false resume
      | none => c :: headGo n (c == '\n') rest
    else c :: headGo n (c == '\n') rest

def headChars (xs : List Char) : List Char := headGo xs.length true xs

/-- JavaScript `String.prototype.trim`: strip whitespace from both ends. -/
def trimChars (xs : List Char) : List Char :=
  ((xs.dropWhile isWS).reverse.dropWhile isWS).reverse

/-- Step 1 of `postProcessForMdx`: `.replace(/\n{3,}/g, '\n\n')`. -/
def collapseNewlines (s : String) : String := ⟨collapseNLChars s.data⟩

/-- Step 2 of `postProcessForMdx`: `.replace(/```(\w+)?\n\n/g, '```$1\n')`. -/
def fixCodeBlocks (s : String) : String := ⟨fenceChars s.data⟩

/-- Step 3 of `postProcessForMdx`: `.replace(/^(\s*)-\s*\n/gm, '$1- ')`. -/
def fixListItems (s : String) : String := ⟨listChars s.data⟩

/-- Step 4 of `postProcessForMdx`: `.replace(/^(#{1,6})\s+(.+)$/gm, '$1 $2')`. -/
def fixHeadings (s : String) : String := ⟨headChars s.data⟩

/-- JavaScript `String.prototype.trim`. -/
def jsTrim (s : String) : String := ⟨trimChars s.data⟩

/-- `postProcessForMdx` (src/index.js lines 101–114): the four rewrites in
source order, then `trim`. -/
def postProcessForMdx (s : String) : String :=
  jsTrim (fixHeadings (fixListItems (fixCodeBlocks (collapseNewlines s))))

/-! ### Node `path` helpers, as the converter uses them

The converter calls `path.basename`, `path.extname`, `path.dirname` and
`path.join` on POSIX-style paths: directory-listing entries (no separator)
and paths formed by `path.join(dir, entry)`.  The embeddings below follow
Node's POSIX implementations on such inputs; `pathJoin` is Node `path.join`
for a nonempty left argument without a trailing separator and a plain right
segment (where no normalization occurs). -/

/-- Node `path.basename(p)`: the portion after the last `'/'`. -/
def basenameChars (xs : List Char) : List Char :=
  (xs.reverse.takeWhile (fun c => !(c == '/'))).reverse

def basename (p : String) : String := ⟨basenameChars p.data⟩

/-- Node `path.extname` on the basename characters `b0`: from the last
`'.'` to the end; empty when there is no dot at all, when the last dot is
the first character (hidden files such as `.docx`), or for `..`.
`b0.reverse.takeWhile (· ≠ '.')` is the part after the last dot. -/
def extnameAux (b0 : List Char) : List Char :=
  if b0 = ['.', '.'] then []
  else if (b0.reverse.takeWhile (fun c => !(c == '.'))).length = b0.length then []
  else if (b0.reverse.takeWhile (fun c => !(c == '.'))).length + 1 = b0.length then []
  else '.' :: (b0.reverse.takeWhile (fun c => !(c == '.'))).reverse

/-- Node `path.extname(p)`. -/
def extname (p : String) : String := ⟨extnameAux (basenameChars p.data)⟩

/-- Node `path.basename(p, ext)`: the basename, with the suffix `ext`
removed when the basename ends with it and is not equal to it. -/
def basenameExt (p ext : String) : String :=
  let b := basename p
  if b != ext && jsEndsWith b ext then ⟨b.data.take (b.data.length - ext.data.length)⟩ else b

/-- Node `path.join(dir, name)` for a nonempty `dir` with no trailing
separator and a separator-free `name` (the only shape the converter
builds): plain concatenation with one separator. -/
def pathJoin (dir name : String) : String := dir ++ "/" ++ name

/-- Node `path.dirname(p)`: everything before the last `'/'` (the root
stays `/`, a separator-free path has dirname `.`). -/
def dirname (p : String) : String :=
  if p.data.contains '/' then
    if (p.data.reverse.dropWhile (fun c => !(c == '/'))).reverse == ['/'] then "/"
    else ⟨((p.data.reverse.dropWhile (fun c => !(c == '/'))).reverse).dropLast⟩
  else "."

/-- JavaScript `String.prototype.toLowerCase`, ASCII range. -/
def jsToLower (s : String) : String := ⟨s.data.map Char.toLower⟩

/-! ### The custom image rule (src/index.js lines 29–43) -/

/-- The `replacement` function of the `image` turndown rule, applied to the
three attributes (absent attributes arrive as `''` through `|| ''`).  A
`data:` source yields Markdown image syntax, any other source a literal
`<img>` tag; the title clause/attribute is included only when the title is
nonempty (JavaScript truthiness of a string). -/
def imageReplacement (alt src title : String) : String :=
  if jsStartsWith src "data:" then
    "![" ++ alt ++ "](" ++ src ++ (if title == "" then "" else " \"" ++ title ++ "\"") ++ ")"
  else
    "<img src=\"" ++ src ++ "\" alt=\"" ++ alt ++ "\""
      ++ (if title == "" then "" else " title=\"" ++ title ++ "\"") ++ " />"

/-! ### Front matter (src/index.js lines 116–127) -/

/-- The fixed `description` value of the front matter. -/
def frontmatterDescription : String := "Converted from DOCX file"

/-- `addMdxFrontmatter(content, originalPath)`.  The `date` field is
`new Date().toISOString().split('T')[0]` in the source; the current date is
passed in as `today`. -/
def addMdxFrontmatter (content originalPath today : String) : String :=
  let fileName := basenameExt originalPath (extname originalPath)
  "---\ntitle: \"" ++ fileName ++ "\"\ndescription: \"" ++ frontmatterDescription
    ++ "\"\ndate: \"" ++ today ++ "\"\n---\n\n" ++ content

/-! ### The conversion orchestrators (src/index.js lines 54–99 and 129–171)

The filesystem, mammoth and turndown collaborators are abstracted into an
environment; each conversion returns its result together with the trace of
side-effecting calls it performed.  Console logging (an observability
channel the spec declares non-structural) is not modeled. -/

/-- The converter's collaborators. `accessOk p` is whether `fs.access p`
succeeds; `extract` is `mammoth.convertToHtml` (the produced HTML, or the
message of the error it throws); `render` is `turndownService.turndown`;
`today` the current ISO calendar date; `writeOk p` whether `fs.writeFile`
to `p` succeeds; `listDir` is `fs.readdir`. -/
structure Env where
  accessOk : String → Bool
  extract : String → Except String String
  render : String → String
  today : String
  writeOk : String → Bool
  listDir : String → List String

/-- Side-effecting calls the converter performs, in order. -/
inductive Ev
  | access (p : String)
  | extract (p : String)
  | mkdir (p : String)
  | write (p : String) (content : String)
deriving DecidableEq, Repr

/-- Errors of a single-file conversion: `fs.access` rejection on a missing
source (`NotFoundError`), an extraction error thrown by mammoth, or a write
failure. -/
inductive ConvError
  | notFound
  | extraction (msg : String)
  | ioWrite
deriving DecidableEq, Repr

/-- The destination path of lines 80–84: the given output path, or, when
none was given, the source's directory joined with its base name (source
extension stripped) plus `.mdx`. -/
def derivedOut (inputPath : String) (outputPath? : Option String) : String :=
  match outputPath? with
  | some p => p
  | none => pathJoin (dirname inputPath) (basenameExt inputPath (extname inputPath) ++ ".mdx")

/-- The written file content (lines 74–77 and 86–87): turndown render,
post-processing, front matter. -/
def mdxContentOf (env : Env) (inputPath html : String) : String :=
  addMdxFrontmatter (postProcessForMdx (env.render html)) inputPath env.today

/-- `convertDocxToMdx(inputPath, outputPath)` (lines 54–99): check the
source exists, extract HTML, render Markdown, post-process, derive the
destination when none is given, prepend front matter, write.  Any failure
is rethrown unchanged (the `catch` only logs). -/
def convertDocxToMdx (env : Env) (inputPath : String) (outputPath? : Option String) :
    Except ConvError String × List Ev :=
  if env.accessOk inputPath then
    match env.extract inputPath with
    | .error m => (.error (.extraction m), [.access inputPath, .extract inputPath])
    | .ok html =>
      if env.writeOk (derivedOut inputPath outputPath?) then
        (.ok (derivedOut inputPath outputPath?),
          [.access inputPath, .extract inputPath,
            .write (derivedOut inputPath outputPath?) (mdxContentOf env inputPath html)])
      else
        (.error .ioWrite,
          [.access inputPath, .extract inputPath,
            .write (derivedOut inputPath outputPath?) (mdxContentOf env inputPath html)])
  else (.error .notFound, [.access inputPath])

/-- The eligibility filter of `convertDirectory` (lines 134–137):
`path.extname(file).toLowerCase() === '.docx' &&
!path.basename(file).startsWith('~')`. -/
def isEligibleDocx (file : String) : Bool :=
  jsToLower (extname file) == ".docx" && !(jsStartsWith (basename file) "~")

/-- `files.filter(...)` of lines 134–137. -/
def docxFilter (files : List String) : List String := files.filter isEligibleDocx

/-- The eligibility predicate as the spec words it ("entries whose name
ends with the target source extension (case-insensitive) AND whose name
does not begin with the conventional temporary-file marker prefix") — a
second definition, following the spec's words, kept only to compare with
the code's `isEligibleDocx`. -/
def specEligibleDocx (file : String) : Bool :=
  jsEndsWith (jsToLower file) ".docx" && !(jsStartsWith file "~")

/-- The destination-path option the directory loop passes for `file`
(lines 150–154): `path.join(outputDir, fileName + '.mdx')` when an output
directory was given, `null` otherwise. -/
def loopOut (outputDir? : Option String) (file : String) : Option String :=
  outputDir?.map (fun od => pathJoin od (basenameExt file (extname file) ++ ".mdx"))

/-- The `fs.mkdir(outputDir, { recursive: true })` call of line 151,
performed per iteration when an output directory was given; modeled as
always succeeding. -/
def loopMkdirEvs (outputDir? : Option String) : List Ev :=
  match outputDir? with
  | some od => [Ev.mkdir od]
  | none => []

/-- The `for (const file of docxFiles)` loop of lines 146–162: derive the
destination when an output directory is given (after `fs.mkdir` on it),
attempt the single-file conversion, push the destination on success, only
log on failure, and continue. -/
def convertLoop (env : Env) (inputDir : String) (outputDir? : Option String) :
    List String → List String × List Ev
  | [] => ([], [])
  | file :: rest =>
    match (convertDocxToMdx env (pathJoin inputDir file) (loopOut outputDir? file)).1 with
    | .ok p =>
      (p :: (convertLoop env inputDir outputDir? rest).1,
        loopMkdirEvs outputDir?
          ++ (convertDocxToMdx env (pathJoin inputDir file) (loopOut outputDir? file)).2
          ++ (convertLoop env inputDir outputDir? rest).2)
    | .error _ =>
      ((convertLoop env inputDir outputDir? rest).1,
        loopMkdirEvs outputDir?
          ++ (convertDocxToMdx env (pathJoin inputDir file) (loopOut outputDir? file)).2
          ++ (convertLoop env inputDir outputDir? rest).2)

/-- `convertDirectory(inputDir, outputDir)` (lines 129–171): list the
directory, filter eligible entries, convert each in listing order.  With
zero eligible files the loop body never runs and the result is `[]`, which
is also what the early return of lines 139–142 produces.  `fs.mkdir` with
`recursive: true` on the output directory is modeled as always succeeding
(recorded in the trace). -/
def convertDirectory (env : Env) (inputDir : String) (outputDir? : Option String) :
    List String × List Ev :=
  convertLoop env inputDir outputDir? (docxFilter (env.listDir inputDir))

/-! ### Fixed points of the post-processing rewrites

For the idempotence analysis each rewrite gets a decidable predicate that
holds exactly when the rewrite's scanner leaves the input unchanged (or, for
step 4, changes it only into itself).  Each predicate walks the input the
way the scanner does, checking the match attempt at the positions where the
scanner would attempt one. -/

/-- The anchor flag at the position following `u`, entered with flag `b`:
anchors sit at the start of the scan and right after every newline. -/
def lastFlag (b : Bool) (u : List Char) : Bool :=
  match u.getLast? with
  | some c => c == '\n'
  | none => b

/-! ### Generic list lemmas -/

theorem length_tw_add_dw (p : Char → Bool) (l : List Char) :
    (l.takeWhile p).length + (l.dropWhile p).length = l.length := by
  conv_rhs => rw [← List.takeWhile_append_dropWhile p l]
  rw [List.length_append]

theorem length_dw_le (p : Char → Bool) (l : List Char) :
    (l.dropWhile p).length ≤ l.length := by
  have := length_tw_add_dw p l; omega

theorem length_tw_le (p : Char → Bool) (l : List Char) :
    (l.takeWhile p).length ≤ l.length := by
  have := length_tw_add_dw p l; omega

theorem takeWhile_of_all {p : Char → Bool} {l : List Char}
    (h : ∀ c ∈ l, p c = true) : l.takeWhile p = l := by
  induction l with
  | nil => rfl
  | cons c cs ih =>
    rw [List.takeWhile_cons, if_pos (h c (by simp)), ih (fun d hd => h d (by simp [hd]))]

theorem takeWhile_append_of_all {p : Char → Bool} {xs : List Char} (ys : List Char)
    (h : ∀ c ∈ xs, p c = true) :
    (xs ++ ys).takeWhile p = xs ++ ys.takeWhile p := by
  induction xs with
  | nil => simp
  | cons c cs ih =>
    rw [List.cons_append, List.takeWhile_cons, if_pos (h c (by simp)),
      ih (fun d hd => h d (by simp [hd])), List.cons_append]

theorem dropWhile_append_of_all {p : Char → Bool} {xs : List Char} (ys : List Char)
    (h : ∀ c ∈ xs, p c = true) :
    (xs ++ ys).dropWhile p = ys.dropWhile p := by
  induction xs with
  | nil => simp
  | cons c cs ih =>
    rw [List.cons_append, List.dropWhile_cons, if_pos (h c (by simp)),
      ih (fun d hd => h d (by simp [hd]))]

theorem takeWhile_append_stop {p : Char → Bool} {xs : List Char} {c : Char} (ys : List Char)
    (h : ∀ d ∈ xs, p d = true) (hc : p c = false) :
    (xs ++ c :: ys).takeWhile p = xs := by
  rw [takeWhile_append_of_all _ h, List.takeWhile_cons, if_neg (by simp [hc]), List.append_nil]

theorem dropWhile_append_stop {p : Char → Bool} {xs : List Char} {c : Char} (ys : List Char)
    (h : ∀ d ∈ xs, p d = true) (hc : p c = false) :
    (xs ++ c :: ys).dropWhile p = c :: ys := by
  rw [dropWhile_append_of_all _ h, List.dropWhile_cons, if_neg (by simp [hc])]

theorem fenceGo_cons_some {c : Char} {rest w r : List Char} (n : Nat)
    (h : fenceSplit (c :: rest) = some (w, r)) :
    fenceGo (n + 1) (c :: rest) = btick :: btick :: btick :: (w ++ '\n' :: fenceGo n r) := by
  show (match fenceSplit (c :: rest) with
    | some (w, r) => btick :: btick :: btick :: (w ++ '\n' :: fenceGo n r)
    | none => c :: fenceGo n rest) = _
  rw [h]

theorem fenceGo_cons_none {c : Char} {rest : List Char} (n : Nat)
    (h : fenceSplit (c :: rest) = none) :
    fenceGo (n + 1) (c :: rest) = c :: fenceGo n rest := by
  show (match fenceSplit (c :: rest) with
    | some (w, r) => btick :: btick :: btick :: (w ++ '\n' :: fenceGo n r)
    | none => c :: fenceGo n rest) = _
  rw [h]

theorem headGo_cons_some {c : Char} {rest hs s2 resume : List Char} (n : Nat)
    (hc : c = '#') (h : headSplit (c :: rest) = some (hs, s2, resume)) :
    headGo (n + 1) true (c :: rest) = hs ++ ' ' :: s2 ++ headGo n false resume := by
  show (if true && c == '#' then
      match headSplit (c :: rest) with
      | some (hs, s2, resume) => hs ++ ' ' :: s2 ++ headGo n false resume
      | none => c :: headGo n (c == '\n') rest
    else c :: headGo n (c == '\n') rest) = _
  rw [if_pos (by simp [hc]), h]

theorem headGo_cons_none {c : Char} {rest : List Char} (n : Nat)
    (h : headSplit (c :: rest) = none) :
    headGo (n + 1) true (c :: rest) = c :: headGo n (c == '\n') rest := by
  by_cases hc : (true && c == '#') = true
  · show (if true && c == '#' then
        match headSplit (c :: rest) with
        | some (hs, s2, resume) => hs ++ ' ' :: s2 ++ headGo n false resume
        | none => c :: headGo n (c == '\n') rest
      else c :: headGo n (c == '\n') rest) = _
    rw [if_pos hc, h]
  · show (if true && c == '#' then
        match headSplit (c :: rest) with
        | some (hs, s2, resume) => hs ++ ' ' :: s2 ++ headGo n false resume
        | none => c :: headGo n (c == '\n') rest
      else c :: headGo n (c == '\n') rest) = _
    rw [if_neg hc]

theorem headGo_cons_not_hash {c : Char} (n : Nat) (rest : List Char) (hc : (c == '#') = false) :
    headGo (n + 1) true (c :: rest) = c :: headGo n (c == '\n') rest := by
  show (if true && c == '#' then
      match headSplit (c :: rest) with
      | some (hs, s2, resume) => hs ++ ' ' :: s2 ++ headGo n false resume
      | none => c :: headGo n (c == '\n') rest
    else c :: headGo n (c == '\n') rest) = _
  rw [if_neg (by simp [hc])]

theorem headGo_cons_false (n : Nat) (c : Char) (rest : List Char) :
    headGo (n + 1) false (c :: rest) = c :: headGo n (c == '\n') rest := rfl

/-! ### Consumption bounds for the match attempts -/

theorem fenceSplit_length {xs w r : List Char} (h : fenceSplit xs = some (w, r)) :
    w.length + r.length + 5 = xs.length := by
  match xs with
  | [] => simp [fenceSplit] at h
  | [c1] => simp [fenceSplit] at h
  | [c1, c2] => simp [fenceSplit] at h
  | c1 :: c2 :: c3 :: rest =>
    rw [fenceSplit] at h
    split at h
    · split at h
      · rename_i rr hdrop
        simp only [Option.some.injEq, Prod.mk.injEq] at h
        obtain ⟨rfl, rfl⟩ := h
        have hl := length_tw_add_dw isWordChar rest
        rw [hdrop] at hl
        simp only [List.length_cons] at hl ⊢
        omega
      · cases h
    · cases h

theorem afterLastNL_length_le (v : List Char) : (afterLastNL v).length ≤ v.length := by
  rw [afterLastNL, List.length_reverse]
  calc (v.reverse.takeWhile _).length ≤ v.reverse.length := length_tw_le _ _
    _ = v.length := List.length_reverse v

theorem headBacktrack_length {W suf : List Char} {e : Char}
    (h : headBacktrack W = some (e, suf)) : suf.length + 2 ≤ W.length := by
  rw [headBacktrack] at h
  split at h
  · rename_i c a t hdrop
    simp only [Option.some.injEq, Prod.mk.injEq] at h
    obtain ⟨rfl, rfl⟩ := h
    have h1 := length_tw_add_dw (fun c => c == '\n') W.reverse
    rw [hdrop] at h1
    rw [List.length_reverse] at h1
    rw [List.length_reverse]
    simp only [List.length_cons] at h1
    omega
  · cases h

theorem headSplit_length {xs hs s2 resume : List Char}
    (h : headSplit xs = some (hs, s2, resume)) : resume.length + 2 ≤ xs.length := by
  rw [headSplit] at h
  split at h
  · cases h
  · rename_i hcond
    have hhs : 1 ≤ (xs.takeWhile (fun d => d == '#')).length := by
      rcases Nat.eq_zero_or_pos (xs.takeWhile (fun d => d == '#')).length with h0 | h1
      · simp [h0] at hcond
      · exact h1
    have hW : ¬ ((xs.dropWhile (fun d => d == '#')).takeWhile isWS).isEmpty = true := by
      intro hnil
      simp [hnil] at hcond
    have h5 : 1 ≤ ((xs.dropWhile (fun d => d == '#')).takeWhile isWS).length := by
      cases hW' : (xs.dropWhile (fun d => d == '#')).takeWhile isWS with
      | nil => rw [hW'] at hW; simp at hW
      | cons a b => simp
    split at h
    · rename_i d r2 hdrop
      simp only [Option.some.injEq, Prod.mk.injEq] at h
      obtain ⟨rfl, rfl, rfl⟩ := h
      have h1 := length_tw_add_dw (fun d => d == '#') xs
      have h3 := length_tw_add_dw isWS (xs.dropWhile (fun d => d == '#'))
      rw [hdrop] at h3
      have h4 := length_dw_le (fun e => !(e == '\n')) (d :: r2)
      simp only [List.length_cons] at h3 h4
      omega
    · rename_i hdrop
      split at h
      · rename_i e suf hbt
        simp only [Option.some.injEq, Prod.mk.injEq] at h
        obtain ⟨rfl, rfl, rfl⟩ := h
        have h1 := length_tw_add_dw (fun d => d == '#') xs
        have h3 := length_tw_add_dw isWS (xs.dropWhile (fun d => d == '#'))
        rw [hdrop] at h3
        have h4 := headBacktrack_length hbt
        simp only [List.length_nil] at h3
        omega
      · cases h

/-! ### Fuel adequacy: any fuel at least the input length gives the same
scan result, so `fuel = length` in the wrappers is enough. -/

theorem fenceGo_fuel (n : Nat) : ∀ (m : Nat) (xs : List Char),
    xs.length ≤ n → xs.length ≤ m → fenceGo n xs = fenceGo m xs := by
  induction n with
  | zero =>
    intro m xs hn _
    have : xs = [] := List.length_eq_zero.mp (Nat.le_zero.mp hn)
    subst this
    cases m <;> rfl
  | succ n ih =>
    intro m xs hn hm
    cases xs with
    | nil => cases m <;> rfl
    | cons c rest =>
      cases m with
      | zero => simp at hm
      | succ m =>
        simp only [List.length_cons] at hn hm
        cases hsplit : fenceSplit (c :: rest) with
        | none =>
          rw [fenceGo_cons_none n hsplit, fenceGo_cons_none m hsplit,
            ih m rest (by omega) (by omega)]
        | some wr =>
          obtain ⟨w, r⟩ := wr
          have hlen := fenceSplit_length hsplit
          simp only [List.length_cons] at hlen
          rw [fenceGo_cons_some n hsplit, fenceGo_cons_some m hsplit,
            ih m r (by omega) (by omega)]

theorem headGo_fuel (n : Nat) : ∀ (m : Nat) (b : Bool) (xs : List Char),
    xs.length ≤ n → xs.length ≤ m → headGo n b xs = headGo m b xs := by
  induction n with
  | zero =>
    intro m b xs hn _
    have : xs = [] := List.length_eq_zero.mp (Nat.le_zero.mp hn)
    subst this
    cases m <;> rfl
  | succ n ih =>
    intro m b xs hn hm
    cases xs with
    | nil => cases m <;> rfl
    | cons c rest =>
      cases m with
      | zero => simp at hm
      | succ m =>
        simp only [List.length_cons] at hn hm
        cases b with
        | false =>
          rw [headGo_cons_false, headGo_cons_false, ih m (c == '\n') rest (by omega) (by omega)]
        | true =>
          by_cases hc : c = '#'
          · cases hsplit : headSplit (c :: rest) with
            | none =>
              rw [headGo_cons_none n hsplit, headGo_cons_none m hsplit,
                ih m (c == '\n') rest (by omega) (by omega)]
            | some wr =>
              obtain ⟨hs, s2, resume⟩ := wr
              have hlen := headSplit_length hsplit
              simp only [List.length_cons] at hlen
              rw [headGo_cons_some n hc hsplit, headGo_cons_some m hc hsplit,
                ih m false resume (by omega) (by omega)]
          · have hc' : (c == '#') = false := by simp [hc]
            rw [headGo_cons_not_hash n rest hc', headGo_cons_not_hash m rest hc',
              ih m (c == '\n') rest (by omega) (by omega)]

/-! ## Claim C6: the image render rule -/

/-- C6: for every image element with attributes alt, src, title: if src is
an inline data URI (`data:` prefix) the rule emits `![alt](src "title")`
with the title clause omitted when the title is empty; otherwise it emits
`<img src="..." alt="..." title="..." />` with the title attribute omitted
when the title is empty; in particular src `http://x/y.png`, alt `cat`, no
title yields exactly `<img src="http://x/y.png" alt="cat" />`. -/
theorem C6_image_rule :
    (∀ alt src title : String, jsStartsWith src "data:" = true →
        imageReplacement alt src title
          = "![" ++ alt ++ "](" ++ src
              ++ (if title == "" then "" else " \"" ++ title ++ "\"") ++ ")")
  ∧ (∀ alt src title : String, jsStartsWith src "data:" = false →
        imageReplacement alt src title
          = "<img src=\"" ++ src ++ "\" alt=\"" ++ alt ++ "\""
              ++ (if title == "" then "" else " title=\"" ++ title ++ "\"") ++ " />")
  ∧ imageReplacement "cat" "http://x/y.png" "" = "<img src=\"http://x/y.png\" alt=\"cat\" />" := by
  refine ⟨?_, ?_, by decide⟩
  · intro alt src title h
    rw [imageReplacement, if_pos h]
  · intro alt src title h
    rw [imageReplacement, if_neg (by simp [h])]

/-- Witness for C6 at concrete attribute values. -/
theorem C6_image_rule_witness :
    imageReplacement "a" "data:z" "" = "![a](data:z)"
  ∧ imageReplacement "a" "h.png" "t" = "<img src=\"h.png\" alt=\"a\" title=\"t\" />" :=
  ⟨(C6_image_rule.1 "a" "data:z" "" (by decide)).trans (by decide),
   (C6_image_rule.2.1 "a" "h.png" "t" (by decide)).trans (by decide)⟩

/-! ## Claim C5: front-matter structure -/

/-- C5: for any non-empty body and any source path/date, the composer's
output starts with a `---` line, carries the title, description and date
entries, then a second `---` delimiter line, followed immediately by
exactly one blank line (the `"\n"` after `"---\n"`), followed by the body
content verbatim. -/
theorem C5_frontmatter_structure (content originalPath today : String)
    (_h : content ≠ "") :
    addMdxFrontmatter content originalPath today
      = "---\n"
          ++ ("title: \"" ++ basenameExt originalPath (extname originalPath) ++ "\"\n"
              ++ "description: \"Converted from DOCX file\"\n"
              ++ ("date: \"" ++ today ++ "\"\n"))
          ++ "---\n" ++ "\n" ++ content := by
  rw [addMdxFrontmatter]
  apply String.ext
  simp only [String.data_append, frontmatterDescription]
  simp [List.append_assoc]

/-- Witness for C5 at a concrete body, path and date. -/
theorem C5_frontmatter_structure_witness :
    addMdxFrontmatter "BODY" "doc.docx" "2026-10-11"
      = "---\n"
          ++ ("title: \"" ++ basenameExt "doc.docx" (extname "doc.docx") ++ "\"\n"
              ++ "description: \"Converted from DOCX file\"\n"
              ++ ("date: \"" ++ "2026-10-11" ++ "\"\n"))
          ++ "---\n" ++ "\n" ++ "BODY" :=
  C5_frontmatter_structure "BODY" "doc.docx" "2026-10-11" (by decide)

/-! ## Claim C9: missing source fails before extraction -/

/-- C9: single-file conversion on a source path that does not exist fails
with `NotFoundError` (the `fs.access` rejection) before any extraction is
attempted: the trace is exactly the access check — the extraction
collaborator is never invoked and no destination file is written. -/
theorem C9_notFound_before_extraction (env : Env) (p : String) (out? : Option String)
    (h : env.accessOk p = false) :
    (convertDocxToMdx env p out?).1 = Except.error ConvError.notFound
  ∧ (convertDocxToMdx env p out?).2 = [Ev.access p]
  ∧ (∀ q : String, Ev.extract q ∉ (convertDocxToMdx env p out?).2)
  ∧ (∀ (q content : String), Ev.write q content ∉ (convertDocxToMdx env p out?).2) := by
  have hmain : convertDocxToMdx env p out?
      = (Except.error ConvError.notFound, [Ev.access p]) := by
    rw [convertDocxToMdx.eq_def, if_neg (by simp [h])]
  rw [hmain]
  refine ⟨rfl, rfl, ?_, ?_⟩
  · intro q hq
    simp at hq
  · intro q content hq
    simp at hq

/-- Witness for C9 in an environment where the path is missing. -/
theorem C9_notFound_before_extraction_witness :
    (convertDocxToMdx
        ⟨fun _ => false, fun _ => Except.ok "", id, "2026-10-11", fun _ => true, fun _ => []⟩
        "missing.docx" none).1 = Except.error ConvError.notFound :=
  (C9_notFound_before_extraction
    ⟨fun _ => false, fun _ => Except.ok "", id, "2026-10-11", fun _ => true, fun _ => []⟩
    "missing.docx" none rfl).1

/-! ## Claim C7: batch conversion skips failures, keeps order -/

theorem convertLoop_cons_ok {env : Env} {inputDir : String} {outputDir? : Option String}
    {file p : String} (rest : List String)
    (h : (convertDocxToMdx env (pathJoin inputDir file) (loopOut outputDir? file)).1
      = Except.ok p) :
    convertLoop env inputDir outputDir? (file :: rest)
      = (p :: (convertLoop env inputDir outputDir? rest).1,
          loopMkdirEvs outputDir?
            ++ (convertDocxToMdx env (pathJoin inputDir file) (loopOut outputDir? file)).2
            ++ (convertLoop env inputDir outputDir? rest).2) := by
  show (match (convertDocxToMdx env (pathJoin inputDir file) (loopOut outputDir? file)).1 with
    | .ok p =>
      (p :: (convertLoop env inputDir outputDir? rest).1,
        loopMkdirEvs outputDir?
          ++ (convertDocxToMdx env (pathJoin inputDir file) (loopOut outputDir? file)).2
          ++ (convertLoop env inputDir outputDir? rest).2)
    | .error _ =>
      ((convertLoop env inputDir outputDir? rest).1,
        loopMkdirEvs outputDir?
          ++ (convertDocxToMdx env (pathJoin inputDir file) (loopOut outputDir? file)).2
          ++ (convertLoop env inputDir outputDir? rest).2)) = _
  rw [h]

theorem convertLoop_cons_error {env : Env} {inputDir : String} {outputDir? : Option String}
    {file : String} {e : ConvError} (rest : List String)
    (h : (convertDocxToMdx env (pathJoin inputDir file) (loopOut outputDir? file)).1
      = Except.error e) :
    convertLoop env inputDir outputDir? (file :: rest)
      = ((convertLoop env inputDir outputDir? rest).1,
          loopMkdirEvs outputDir?
            ++ (convertDocxToMdx env (pathJoin inputDir file) (loopOut outputDir? file)).2
            ++ (convertLoop env inputDir outputDir? rest).2) := by
  show (match (convertDocxToMdx env (pathJoin inputDir file) (loopOut outputDir? file)).1 with
    | .ok p =>
      (p :: (convertLoop env inputDir outputDir? rest).1,
        loopMkdirEvs outputDir?
          ++ (convertDocxToMdx env (pathJoin inputDir file) (loopOut outputDir? file)).2
          ++ (convertLoop env inputDir outputDir? rest).2)
    | .error _ =>
      ((convertLoop env inputDir outputDir? rest).1,
        loopMkdirEvs outputDir?
          ++ (convertDocxToMdx env (pathJoin inputDir file) (loopOut outputDir? file)).2
          ++ (convertLoop env inputDir outputDir? rest).2)) = _
  rw [h]

theorem convertLoop_fst (env : Env) (inputDir : String) (outputDir? : Option String) :
    ∀ fs : List String,
      (convertLoop env inputDir outputDir? fs).1
        = fs.filterMap (fun file =>
            match (convertDocxToMdx env (pathJoin inputDir file) (loopOut outputDir? file)).1 with
            | .ok p => some p
            | .error _ => none) := by
  intro fs
  induction fs with
  | nil => rfl
  | cons file rest ih =>
    rw [List.filterMap_cons]
    cases hconv : (convertDocxToMdx env (pathJoin inputDir file) (loopOut outputDir? file)).1 with
    | ok p => rw [convertLoop_cons_ok rest hconv]; simp only [ih]
    | error e => rw [convertLoop_cons_error rest hconv]; simp only [ih]

/-- C7: in batch conversion the eligible files are attempted in
directory-listing order and a per-file conversion failure never aborts the
batch: the returned value is exactly the sublist of destination paths of
the files whose single-file conversion succeeded, in listing order, with
failed files omitted and no structural failure entries — stated as a
`filterMap` over the filtered listing, for every environment (hence for
arbitrary per-file failures). -/
theorem C7_batch_skips_failures (env : Env) (inputDir : String) (outputDir? : Option String) :
    (convertDirectory env inputDir outputDir?).1
      = (docxFilter (env.listDir inputDir)).filterMap (fun file =>
          match (convertDocxToMdx env (pathJoin inputDir file) (loopOut outputDir? file)).1 with
          | .ok p => some p
          | .error _ => none) := by
  rw [convertDirectory, convertLoop_fst]

/-! ## Claim C8: the eligibility filter -/

theorem basenameChars_of_no_slash {xs : List Char} (h : '/' ∉ xs) : basenameChars xs = xs := by
  rw [basenameChars, takeWhile_of_all, List.reverse_reverse]
  intro c hc
  have hcmem : c ∈ xs := List.mem_reverse.mp hc
  have : c ≠ '/' := fun heq => h (heq ▸ hcmem)
  simp [this]

theorem jsStartsWith_tilde (s : String) :
    jsStartsWith s "~" = true ↔ s.data.head? = some '~' := by
  rw [jsStartsWith]
  cases hd : s.data with
  | nil => simp [List.isPrefixOf, show ("~" : String).data = ['~'] from rfl]
  | cons c cs =>
    simp only [show ("~" : String).data = ['~'] from rfl, List.isPrefixOf, List.head?_cons,
      Option.some.injEq]
    constructor
    · intro h
      have h1 := (Bool.and_eq_true ..).mp h
      have h2 : ('~' == c) = true := by simpa using h1.1
      exact ((beq_iff_eq ..).mp h2).symm
    · intro h
      subst h
      simp [List.isPrefixOf]

theorem dropWhile_head_false {p : Char → Bool} {l t : List Char} {c : Char}
    (h : l.dropWhile p = c :: t) : p c = false := by
  induction l with
  | nil => simp at h
  | cons a as ih =>
    rw [List.dropWhile_cons] at h
    by_cases ha : p a = true
    · rw [if_pos ha] at h
      exact ih h
    · rw [if_neg ha] at h
      cases h
      simpa using ha

theorem extnameAux_of_decomp {a b : List Char} (ha : a ≠ []) (hb : '.' ∉ b) (hbne : b ≠ []) :
    extnameAux (a ++ '.' :: b) = '.' :: b := by
  have hrev : (a ++ '.' :: b).reverse = b.reverse ++ '.' :: a.reverse := by
    rw [List.reverse_append, List.reverse_cons, List.append_assoc, List.singleton_append]
  have htw : ((a ++ '.' :: b).reverse.takeWhile (fun c => !(c == '.'))) = b.reverse := by
    rw [hrev]
    apply takeWhile_append_stop
    · intro d hd
      have hdb : d ∈ b := List.mem_reverse.mp hd
      have : d ≠ '.' := fun heq => hb (heq ▸ hdb)
      simp [this]
    · simp
  have hlen : (a ++ '.' :: b).length = a.length + 1 + b.length := by
    simp [List.length_append]
    omega
  have ha1 : 1 ≤ a.length := by
    cases a with
    | nil => exact absurd rfl ha
    | cons x xs => simp
  have hb1 : 1 ≤ b.length := by
    cases b with
    | nil => exact absurd rfl hbne
    | cons x xs => simp
  rw [extnameAux]
  rw [if_neg, if_neg, if_neg]
  · rw [htw, List.reverse_reverse]
  · rw [htw, List.length_reverse, hlen]
    omega
  · rw [htw, List.length_reverse, hlen]
    omega
  · intro heq
    have hl := congrArg List.length heq
    rw [hlen] at hl
    simp at hl
    omega

theorem isEligibleDocx_iff {file : String} (h : '/' ∉ file.data) :
    isEligibleDocx file = true ↔
      (∃ a b, file.data = a ++ '.' :: b ∧ a ≠ [] ∧ '.' ∉ b
          ∧ b.map Char.toLower = ['d', 'o', 'c', 'x'])
        ∧ file.data.head? ≠ some '~' := by
  have hbase : basenameChars file.data = file.data := basenameChars_of_no_slash h
  have hbfile : basename file = file := by
    rw [basename]
    apply String.ext
    exact hbase
  rw [isEligibleDocx, Bool.and_eq_true, hbfile]
  constructor
  · rintro ⟨h1, h2⟩
    have h1' : jsToLower (extname file) = ".docx" := (beq_iff_eq ..).mp h1
    have h2' : file.data.head? ≠ some '~' := by
      intro hh
      have hst := (jsStartsWith_tilde file).mpr hh
      rw [hst] at h2
      simp at h2
    refine ⟨?_, h2'⟩
    rw [extname, hbase] at h1'
    rw [extnameAux] at h1'
    split at h1'
    · exact absurd (congrArg String.data h1') (by decide)
    · split at h1'
      · exact absurd (congrArg String.data h1') (by decide)
      · split at h1'
        · exact absurd (congrArg String.data h1') (by decide)
        · rename_i hne1 hne2 hne3
          have hdata : ('.' :: (file.data.reverse.takeWhile
              (fun c => !(c == '.'))).reverse).map Char.toLower
              = ['.', 'd', 'o', 'c', 'x'] := by
            have := congrArg String.data h1'
            simpa [jsToLower] using this
          rw [List.map_cons] at hdata
          have hmap : ((file.data.reverse.takeWhile (fun c => !(c == '.'))).reverse).map
              Char.toLower = ['d', 'o', 'c', 'x'] := (List.cons.inj hdata).2
          have hsplit := List.takeWhile_append_dropWhile
            (fun c => !(c == '.')) file.data.reverse
          have hdropne : file.data.reverse.dropWhile (fun c => !(c == '.')) ≠ [] := by
            intro hnil
            rw [hnil, List.append_nil] at hsplit
            have hl := congrArg List.length hsplit
            rw [List.length_reverse] at hl
            exact hne2 hl
          obtain ⟨c, t, hct⟩ := List.exists_cons_of_ne_nil hdropne
          have hc : c = '.' := by
            have := dropWhile_head_false hct
            simpa using this
          subst hc
          refine ⟨t.reverse, (file.data.reverse.takeWhile (fun c => !(c == '.'))).reverse,
            ?_, ?_, ?_, hmap⟩
          · have hdecomp : file.data.reverse
                = file.data.reverse.takeWhile (fun c => !(c == '.')) ++ '.' :: t := by
              rw [← hct, hsplit]
            have hrev := congrArg List.reverse hdecomp
            rw [List.reverse_reverse, List.reverse_append, List.reverse_cons,
              List.append_assoc, List.singleton_append] at hrev
            exact hrev
          · intro hnil
            have ht : t = [] := by
              have hl := congrArg List.length hnil
              simp at hl
              exact hl
            subst ht
            apply hne3
            have hl := congrArg List.length hsplit
            rw [hct] at hl
            simp only [List.length_append, List.length_cons, List.length_nil,
              List.length_reverse] at hl
            omega
          · intro hmem
            have := List.mem_takeWhile_imp (List.mem_reverse.mp hmem)
            simp at this
  · rintro ⟨⟨a, b, hf, ha, hb, hmap⟩, hhead⟩
    have hbne : b ≠ [] := by
      intro hnil
      rw [hnil] at hmap
      simp at hmap
    constructor
    · have hext : extname file = ⟨'.' :: b⟩ := by
        rw [extname, hbase, hf, extnameAux_of_decomp ha hb hbne]
      rw [hext]
      have hlow : jsToLower ⟨'.' :: b⟩ = ⟨'.' :: b.map Char.toLower⟩ := by
        rw [jsToLower]
        apply String.ext
        simp
      rw [hlow, hmap]
      decide
    · have hsw : jsStartsWith file "~" = false := by
        cases hx : jsStartsWith file "~"
        · rfl
        · exact absurd ((jsStartsWith_tilde file).mp hx) hhead
      simp [hsw]

/-- C8 counterexample: the directory entry `.docx` (a hidden file named
exactly by the extension) ends with `.docx` case-insensitively and has no
`~` prefix, so the claim's eligibility predicate accepts it, but the code's
`path.extname`-based filter rejects it (Node's `extname('.docx')` is empty)
and batch conversion attempts nothing for it. -/
theorem C8_counterexample :
    specEligibleDocx ".docx" = true
  ∧ isEligibleDocx ".docx" = false
  ∧ docxFilter [".docx"] = [] := by
  refine ⟨by decide, by decide, by decide⟩

/-- C8 (amended): a directory entry is attempted exactly when Node's
`path.extname` of its name, lowercased, is `.docx` — i.e. the name splits
at its last dot as `a ++ "." ++ b` with `a` nonempty (so a name consisting
of the bare extension, such as `.docx`, is NOT eligible) and `b` spelling
`docx` case-insensitively — and the name does not begin with `~`; zero
eligible entries give the empty list; the directory `a.docx`,
`~temp.docx`, `b.txt` yields exactly the one entry `a.docx`. -/
theorem C8_eligibility (files : List String) (file : String) (h : '/' ∉ file.data) :
    (file ∈ docxFilter files ↔ file ∈ files ∧
      ((∃ a b, file.data = a ++ '.' :: b ∧ a ≠ [] ∧ '.' ∉ b
          ∧ b.map Char.toLower = ['d', 'o', 'c', 'x'])
        ∧ file.data.head? ≠ some '~'))
  ∧ docxFilter ["a.docx", "~temp.docx", "b.txt"] = ["a.docx"]
  ∧ docxFilter ["b.txt", "nodocx"] = [] := by
  refine ⟨?_, by decide, by decide⟩
  rw [docxFilter, List.mem_filter, isEligibleDocx_iff h]

/-- Witness for C8 at the concrete listing of the claim. -/
theorem C8_eligibility_witness :
    "a.docx" ∈ docxFilter ["a.docx", "~temp.docx", "b.txt"]
  ∧ docxFilter ["a.docx", "~temp.docx", "b.txt"] = ["a.docx"] :=
  ⟨((C8_eligibility ["a.docx", "~temp.docx", "b.txt"] "a.docx" (by decide)).1).mpr
      ⟨by decide, ⟨⟨['a'], ['d', 'o', 'c', 'x'], by decide, by decide, by decide,
        by decide⟩, by decide⟩⟩,
   (C8_eligibility ["a.docx", "~temp.docx", "b.txt"] "a.docx" (by decide)).2.1⟩

/-! ## Scanner wrappers applied at a successful match -/

theorem fenceChars_of_split {xs w r : List Char} (h : fenceSplit xs = some (w, r)) :
    fenceChars xs = btick :: btick :: btick :: (w ++ '\n' :: fenceChars r) := by
  have hlen := fenceSplit_length h
  cases xs with
  | nil => simp at hlen
  | cons c rest =>
    show fenceGo (c :: rest).length (c :: rest) = _
    rw [show (c :: rest).length = rest.length + 1 from rfl, fenceGo_cons_some rest.length h,
      fenceGo_fuel rest.length r.length r (by simp only [List.length_cons] at hlen; omega)
        (Nat.le_refl _)]
    rfl

theorem headChars_of_split {xs hs s2 resume : List Char}
    (h : headSplit xs = some (hs, s2, resume)) (hc : xs.head? = some '#') :
    headChars xs = hs ++ ' ' :: s2 ++ headGo resume.length false resume := by
  have hlen := headSplit_length h
  cases xs with
  | nil => simp at hc
  | cons c rest =>
    have hc' : c = '#' := by simpa using hc
    show headGo (c :: rest).length true (c :: rest) = _
    rw [show (c :: rest).length = rest.length + 1 from rfl, headGo_cons_some rest.length hc' h,
      headGo_fuel rest.length resume.length false resume
        (by simp only [List.length_cons] at hlen; omega) (Nat.le_refl _)]

theorem headGo_false_newline (r : List Char) :
    headGo (r.length + 1) false ('\n' :: r) = '\n' :: headChars r := by
  rw [headGo_cons_false]
  rfl

/-! ## Claim C3: step 2 and fence tokens -/

theorem fenceSplit_fence (w r : List Char) (hw : ∀ c ∈ w, isWordChar c = true) :
    fenceSplit (btick :: btick :: btick :: (w ++ '\n' :: '\n' :: r)) = some (w, r) := by
  have hdw : (w ++ '\n' :: '\n' :: r).dropWhile isWordChar = '\n' :: '\n' :: r :=
    dropWhile_append_stop _ hw (by decide)
  have htw : (w ++ '\n' :: '\n' :: r).takeWhile isWordChar = w :=
    takeWhile_append_stop _ hw (by decide)
  simp only [fenceSplit, hdw, htw]
  simp

/-- C3 counterexample: in `"```\nco\n```\n\nAfter"` the only blank line
follows the CLOSING fence (the opening fence is followed directly by code),
yet step 2 removes it — so the claim that step 2 removes blank lines only
after the opening of a fenced code block, and leaves those after a closing
fence unchanged, is false on the code. -/
theorem C3_counterexample :
    fixCodeBlocks "\x60\x60\x60\nco\n\x60\x60\x60\n\nAfter"
      = "\x60\x60\x60\nco\n\x60\x60\x60\nAfter" := by decide

/-- C3 (amended): step 2 removes a blank line immediately following ANY
triple-backtick fence token with an optional word-character language tag —
it does not distinguish opening from closing fences: for every tag `w` and
every remaining input `r`, the fence token, its tag and one newline are
kept, the following blank line's newline is dropped, and the scan
continues on `r`. -/
theorem C3_fence_blank_removal (w r : List Char) (hw : ∀ c ∈ w, isWordChar c = true) :
    fenceChars (btick :: btick :: btick :: (w ++ '\n' :: '\n' :: r))
      = btick :: btick :: btick :: (w ++ '\n' :: fenceChars r) :=
  fenceChars_of_split (fenceSplit_fence w r hw)

/-- Witness for C3 at a concrete tag and remainder. -/
theorem C3_fence_blank_removal_witness :
    fenceChars (btick :: btick :: btick :: (['j', 's'] ++ '\n' :: '\n' :: ['x']))
      = btick :: btick :: btick :: (['j', 's'] ++ '\n' :: fenceChars ['x']) :=
  C3_fence_blank_removal ['j', 's'] ['x'] (by decide)

/-! ## Claim C2: step 3 and blank bullet lines -/

theorem headSplit_heading (k : Nat) (W t r : List Char) (d : Char)
    (hk1 : 1 ≤ k) (hk6 : k ≤ 6) (hWne : W ≠ []) (hW : ∀ c ∈ W, isWS c = true)
    (hd : isWS d = false) (ht : ∀ c ∈ t, (c == '\n') = false) :
    headSplit (List.replicate k '#' ++ (W ++ d :: (t ++ '\n' :: r)))
      = some (List.replicate k '#', d :: t, '\n' :: r) := by
  obtain ⟨w0, W', rfl⟩ := List.exists_cons_of_ne_nil hWne
  have hrepl : ∀ c ∈ List.replicate k '#', (c == '#') = true := by
    intro c hc
    have := List.eq_of_mem_replicate hc
    simp [this]
  have hw0 : isWS w0 = true := hW w0 (by simp)
  have hw0ne : (w0 == '#') = false := by
    have : w0 ≠ '#' := by
      intro heq
      rw [heq] at hw0
      simp [isWS] at hw0
    simp [this]
  have hxs : List.replicate k '#' ++ (w0 :: W' ++ d :: (t ++ '\n' :: r))
      = List.replicate k '#' ++ w0 :: (W' ++ d :: (t ++ '\n' :: r)) := by
    simp
  have htw1 : (List.replicate k '#' ++ (w0 :: W' ++ d :: (t ++ '\n' :: r))).takeWhile
      (fun d => d == '#') = List.replicate k '#' := by
    rw [hxs]
    exact takeWhile_append_stop _ hrepl hw0ne
  have hdw1 : (List.replicate k '#' ++ (w0 :: W' ++ d :: (t ++ '\n' :: r))).dropWhile
      (fun d => d == '#') = w0 :: (W' ++ d :: (t ++ '\n' :: r)) := by
    rw [hxs]
    exact dropWhile_append_stop _ hrepl hw0ne
  have hdne : (d == '\n') = false := by
    have : d ≠ '\n' := by
      intro heq
      rw [heq] at hd
      simp [isWS] at hd
    simp [this]
  have htw2 : (w0 :: (W' ++ d :: (t ++ '\n' :: r))).takeWhile isWS = w0 :: W' := by
    show ((w0 :: W') ++ d :: (t ++ '\n' :: r)).takeWhile isWS = w0 :: W'
    exact takeWhile_append_stop _ hW (by simpa using hd)
  have hdw2 : (w0 :: (W' ++ d :: (t ++ '\n' :: r))).dropWhile isWS
      = d :: (t ++ '\n' :: r) := by
    show ((w0 :: W') ++ d :: (t ++ '\n' :: r)).dropWhile isWS = d :: (t ++ '\n' :: r)
    exact dropWhile_append_stop _ hW (by simpa using hd)
  have ht' : ∀ c ∈ t, (!(c == '\n')) = true := fun c hc => by simp [ht c hc]
  have htw3 : (d :: (t ++ '\n' :: r)).takeWhile (fun e => !(e == '\n')) = d :: t := by
    rw [List.takeWhile_cons, if_pos (by simp [hdne]),
      takeWhile_append_stop _ ht' (by decide)]
  have hdw3 : (d :: (t ++ '\n' :: r)).dropWhile (fun e => !(e == '\n')) = '\n' :: r := by
    rw [List.dropWhile_cons, if_pos (by simp [hdne]),
      dropWhile_append_stop _ ht' (by decide)]
  have h0 : (k == 0) = false := by
    simp only [beq_eq_false_iff_ne, ne_eq]
    omega
  have h6 : decide (6 < k) = false := by
    simp only [decide_eq_false_iff_not]
    omega
  simp only [headSplit, htw1, hdw1, htw2, hdw2, htw3, hdw3, List.length_replicate,
    List.isEmpty_cons, h0, h6, Bool.or_self, Bool.or_false, Bool.false_or, if_false,
    Bool.false_eq_true]

/-- C4 counterexample: in the input `"-\n#  a"` the second line is a
heading line with two spaces after the marker, but step 3 first rewrites
the blank bullet line `"-"` and joins the two lines, so the heading is no
longer at a line start when step 4 runs: the post-processor returns
`"- #  a"`, keeping TWO spaces between the `#` run and the text. -/
theorem C4_counterexample : postProcessForMdx "-\n#  a" = "- #  a" := by decide

/-- C4 (amended): step 4 of the post-processor rewrites every heading line
whose 1–6-long `#` marker run stands at an anchor position (start of its
input or just after a line break) and is followed by whitespace and a
further non-whitespace character: the line becomes the marker run, exactly
ONE space, and the line's remaining text verbatim, for every marker length,
original whitespace and line text; heading lines that earlier steps have
merged into preceding content (as in the counterexample) and heading lines
preceded by line-leading whitespace are not rewritten.  Scope: the
statement quantifies only over `plainChar` content after the marker run —
line breaks are `'\n'` alone and the whitespace is ASCII.  Carriage
returns, U+2028 and U+2029, which the engine also treats as line breaks
(anchoring `^` after them and stopping `(.+)$` at them), and the non-ASCII
whitespace of `\s` are outside the embedding and deliberately excluded by
`hplain`. -/
theorem C4_heading_normalization (k : Nat) (W t r : List Char) (d : Char)
    (hk1 : 1 ≤ k) (hk6 : k ≤ 6) (hWne : W ≠ []) (hW : ∀ c ∈ W, isWS c = true)
    (hd : isWS d = false) (ht : ∀ c ∈ t, (c == '\n') = false)
    (hplain : ∀ c ∈ W ++ d :: (t ++ '\n' :: r), plainChar c = true) :
    headChars (List.replicate k '#' ++ (W ++ d :: (t ++ '\n' :: r)))
      = List.replicate k '#' ++ ' ' :: (d :: t) ++ '\n' :: headChars r := by
  have hsplit := headSplit_heading k W t r d hk1 hk6 hWne hW hd ht
  have hhead : (List.replicate k '#' ++ (W ++ d :: (t ++ '\n' :: r))).head? = some '#' := by
    obtain ⟨k', rfl⟩ : ∃ k', k = k' + 1 := ⟨k - 1, by omega⟩
    rw [List.replicate_succ]
    rfl
  rw [headChars_of_split hsplit hhead]
  simp only [List.length_cons]
  rw [headGo_false_newline]

/-- Witness for C4 at a concrete heading line. -/
theorem C4_heading_normalization_witness :
    headChars (List.replicate 1 '#' ++ ([' ', ' '] ++ 'x' :: ([] ++ '\n' :: [])))
      = List.replicate 1 '#' ++ ' ' :: ('x' :: []) ++ '\n' :: headChars [] :=
  C4_heading_normalization 1 [' ', ' '] [] [] 'x' (by decide) (by decide) (by decide)
    (by decide) (by decide) (by decide) (by decide)


/-! ## Claim C10: derived destination paths in batch mode -/

theorem pathJoin_data (dir f : String) :
    (pathJoin dir f).data = dir.data ++ '/' :: f.data := by
  rw [pathJoin, String.data_append, String.data_append,
    show ("/" : String).data = ['/'] from rfl, List.append_assoc, List.singleton_append]

theorem basenameChars_pathJoin {f : String} (dir : String) (hf : '/' ∉ f.data) :
    basenameChars (pathJoin dir f).data = f.data := by
  rw [pathJoin_data, basenameChars, List.reverse_append, List.reverse_cons,
    List.append_assoc, List.singleton_append,
    takeWhile_append_stop _ ?_ (by decide), List.reverse_reverse]
  intro d hd
  have hdb : d ∈ f.data := List.mem_reverse.mp hd
  have : d ≠ '/' := fun heq => hf (heq ▸ hdb)
  simp [this]

theorem basename_pathJoin {f : String} (dir : String) (hf : '/' ∉ f.data) :
    basename (pathJoin dir f) = f := by
  rw [basename, basenameChars_pathJoin dir hf]

theorem extname_pathJoin {f : String} (dir : String) (hf : '/' ∉ f.data) :
    extname (pathJoin dir f) = extname f := by
  rw [extname, extname, basenameChars_pathJoin dir hf, basenameChars_of_no_slash hf]

theorem basenameExt_pathJoin {f : String} (dir : String) (hf : '/' ∉ f.data) (ext : String) :
    basenameExt (pathJoin dir f) ext = basenameExt f ext := by
  rw [basenameExt, basenameExt, basename_pathJoin dir hf, basename,
    basenameChars_of_no_slash hf]

theorem dirname_pathJoin {dir f : String} (h1 : dir.data ≠ []) (hf : '/' ∉ f.data) :
    dirname (pathJoin dir f) = dir := by
  have hcontains : (pathJoin dir f).data.contains '/' = true := by
    rw [pathJoin_data]
    simp
  have hdw : (pathJoin dir f).data.reverse.dropWhile (fun c => !(c == '/'))
      = '/' :: dir.data.reverse := by
    rw [pathJoin_data, List.reverse_append, List.reverse_cons, List.append_assoc,
      List.singleton_append, dropWhile_append_stop _ ?_ (by decide)]
    intro d hd
    have hdb : d ∈ f.data := List.mem_reverse.mp hd
    have : d ≠ '/' := fun heq => hf (heq ▸ hdb)
    simp [this]
  have hpre : ((pathJoin dir f).data.reverse.dropWhile (fun c => !(c == '/'))).reverse
      = dir.data ++ ['/'] := by
    rw [hdw, List.reverse_cons, List.reverse_reverse]
  have hne : ((((pathJoin dir f).data.reverse.dropWhile (fun c => !(c == '/'))).reverse)
      == ['/']) = false := by
    rw [hpre]
    simp only [beq_eq_false_iff_ne, ne_eq]
    intro heq
    have hL := congrArg List.length heq
    simp only [List.length_append, List.length_cons, List.length_nil] at hL
    exact h1 (List.length_eq_zero.mp (by omega))
  rw [dirname, if_pos (by simpa using hcontains), if_neg (by simp [hne]), hpre,
    List.dropLast_concat]

theorem derivedOut_none {dir f : String} (h1 : dir.data ≠ []) (hf : '/' ∉ f.data) :
    derivedOut (pathJoin dir f) none
      = pathJoin dir (basenameExt f (extname f) ++ ".mdx") := by
  rw [derivedOut, dirname_pathJoin h1 hf, extname_pathJoin dir hf,
    basenameExt_pathJoin dir hf]

theorem convertDocx_ok {env : Env} {ip : String} {out? : Option String} {q : String}
    (hq : (convertDocxToMdx env ip out?).1 = Except.ok q) :
    q = derivedOut ip out?
  ∧ ∃ content, Ev.write q content ∈ (convertDocxToMdx env ip out?).2 := by
  by_cases ha : env.accessOk ip = true
  · cases hex : env.extract ip with
    | error m =>
      have hfull : convertDocxToMdx env ip out?
          = (.error (.extraction m), [.access ip, .extract ip]) := by
        simp only [convertDocxToMdx, ha, if_true, hex]
      rw [hfull] at hq
      cases hq
    | ok html =>
      by_cases hw : env.writeOk (derivedOut ip out?) = true
      · have hfull : convertDocxToMdx env ip out?
            = (.ok (derivedOut ip out?),
               [.access ip, .extract ip,
                .write (derivedOut ip out?) (mdxContentOf env ip html)]) := by
          simp only [convertDocxToMdx, ha, if_true, hex, hw]
        rw [hfull] at hq
        have hq' : q = derivedOut ip out? := (Except.ok.inj hq).symm
        refine ⟨hq', mdxContentOf env ip html, ?_⟩
        rw [hfull, hq']
        simp
      · have hw' : env.writeOk (derivedOut ip out?) = false := by
          cases hx : env.writeOk (derivedOut ip out?)
          · rfl
          · exact absurd hx hw
        have hfull : convertDocxToMdx env ip out?
            = (.error .ioWrite,
               [.access ip, .extract ip,
                .write (derivedOut ip out?) (mdxContentOf env ip html)]) := by
          simp only [convertDocxToMdx, ha, if_true, hex, hw', Bool.false_eq_true, if_false]
        rw [hfull] at hq
        cases hq
  · have ha' : env.accessOk ip = false := by
      cases hx : env.accessOk ip
      · rfl
      · exact absurd hx ha
    have hfull : convertDocxToMdx env ip out? = (.error .notFound, [.access ip]) := by
      simp only [convertDocxToMdx, ha', Bool.false_eq_true, if_false]
    rw [hfull] at hq
    cases hq

theorem convertLoop_writes (env : Env) (dir : String) (outputDir? : Option String) :
    ∀ fs : List String, ∀ q ∈ (convertLoop env dir outputDir? fs).1,
      ∃ content, Ev.write q content ∈ (convertLoop env dir outputDir? fs).2 := by
  intro fs
  induction fs with
  | nil =>
    intro q hq
    simp [convertLoop] at hq
  | cons file rest ih =>
    intro q hq
    cases hc : (convertDocxToMdx env (pathJoin dir file) (loopOut outputDir? file)).1 with
    | ok p =>
      rw [convertLoop_cons_ok rest hc] at hq ⊢
      rcases List.mem_cons.mp hq with rfl | hq'
      · obtain ⟨_, content, hmem⟩ := convertDocx_ok hc
        exact ⟨content, by simp [hmem]⟩
      · obtain ⟨content, hmem⟩ := ih q hq'
        exact ⟨content, by simp [hmem]⟩
    | error e =>
      rw [convertLoop_cons_error rest hc] at hq ⊢
      obtain ⟨content, hmem⟩ := ih q hq
      exact ⟨content, by simp [hmem]⟩

/-- C10: in batch conversion with the destination directory omitted, each
successful conversion writes its output into the same directory as its
source file, named with the source's base name and the `.mdx` extension,
and that derived path is the entry appearing in the returned list; every
returned entry was the target of a write. -/
theorem C10_derived_destinations (env : Env) (dir : String)
    (h1 : dir.data ≠ []) (h3 : ∀ f ∈ env.listDir dir, '/' ∉ f.data) :
    ((convertDirectory env dir none).1
      = (docxFilter (env.listDir dir)).filterMap (fun f =>
          match (convertDocxToMdx env (pathJoin dir f) none).1 with
          | .ok _ => some (pathJoin dir (basenameExt f (extname f) ++ ".mdx"))
          | .error _ => none))
  ∧ ∀ q ∈ (convertDirectory env dir none).1,
      ∃ content, Ev.write q content ∈ (convertDirectory env dir none).2 := by
  constructor
  · rw [convertDirectory, convertLoop_fst]
    apply List.filterMap_congr
    intro f hf
    have hf' : f ∈ env.listDir dir := by
      rw [docxFilter] at hf
      exact (List.mem_filter.mp hf).1
    have hslash := h3 f hf'
    have hl : loopOut none f = none := rfl
    rw [hl]
    cases hc : (convertDocxToMdx env (pathJoin dir f) none).1 with
    | ok p =>
      have hp := (convertDocx_ok hc).1
      rw [hp, derivedOut_none h1 hslash]
    | error e => rfl
  · intro q hq
    exact convertLoop_writes env dir none (docxFilter (env.listDir dir)) q hq

/-- Witness for C10 on a one-file directory with an all-green environment. -/
theorem C10_derived_destinations_witness :
    ((convertDirectory
        ⟨fun _ => true, fun _ => Except.ok "h", fun _ => "m", "2026-10-11",
          fun _ => true, fun _ => ["a.docx"]⟩ "/d" none).1
      = (docxFilter ["a.docx"]).filterMap (fun f =>
          match (convertDocxToMdx
              ⟨fun _ => true, fun _ => Except.ok "h", fun _ => "m", "2026-10-11",
                fun _ => true, fun _ => ["a.docx"]⟩ (pathJoin "/d" f) none).1 with
          | .ok _ => some (pathJoin "/d" (basenameExt f (extname f) ++ ".mdx"))
          | .error _ => none)) :=
  (C10_derived_destinations
    ⟨fun _ => true, fun _ => Except.ok "h", fun _ => "m", "2026-10-11",
      fun _ => true, fun _ => ["a.docx"]⟩ "/d" (by decide) (by decide)).1


/-! ## Claim C1: idempotence of the post-processor

The proof shows that the post-processor's own output is a fixed point of
every stage.  The development proceeds in layers: structural elimination
and introduction lemmas for the three match attempts; monotonicity and
assembly lemmas for the fixed-point predicates; transfer lemmas carrying a
match shape from a scanner's output back to its input; identity lemmas
(each predicate makes its scanner the identity); establishment and
preservation lemmas (each scanner output satisfies its own predicate and
preserves the earlier ones); and the final assembly. -/

theorem headBacktrack_some_elim {W suf : List Char} {e : Char}
    (h : headBacktrack W = some (e, suf)) :
    (e == '\n') = false ∧ (∀ c ∈ suf, c = '\n')
  ∧ ∃ pre, pre ≠ [] ∧ W = pre ++ e :: suf := by
  rw [headBacktrack] at h
  split at h
  · rename_i c a t hdrop
    simp only [Option.some.injEq, Prod.mk.injEq] at h
    obtain ⟨rfl, rfl⟩ := h
    have he := dropWhile_head_false hdrop
    refine ⟨by simpa using he, ?_, ?_⟩
    · intro c hc
      rw [List.mem_reverse] at hc
      have := List.mem_takeWhile_imp hc
      simpa using this
    · have hWrev : W.reverse = W.reverse.takeWhile (fun c => c == '\n')
          ++ c :: a :: t := by
        conv_lhs => rw [← List.takeWhile_append_dropWhile (fun c => c == '\n') W.reverse]
        rw [hdrop]
      have h2 := congrArg List.reverse hWrev
      rw [List.reverse_reverse] at h2
      refine ⟨(a :: t).reverse, by simp, ?_⟩
      conv_lhs => rw [h2]
      simp [List.append_assoc]
  · cases h

theorem headSplit_some_elim {xs hs s2 resume : List Char}
    (h : headSplit xs = some (hs, s2, resume)) :
    hs = xs.takeWhile (fun d => d == '#')
  ∧ 1 ≤ hs.length ∧ hs.length ≤ 6
  ∧ (∀ c ∈ hs, c = '#')
  ∧ (∀ c ∈ (xs.dropWhile (fun d => d == '#')).takeWhile isWS, isWS c = true)
  ∧ (xs.dropWhile (fun d => d == '#')).takeWhile isWS ≠ []
  ∧ ((∃ d r2', (xs.dropWhile (fun d => d == '#')).dropWhile isWS = d :: r2'
        ∧ isWS d = false
        ∧ s2 = (d :: r2').takeWhile (fun e => !(e == '\n'))
        ∧ resume = (d :: r2').dropWhile (fun e => !(e == '\n'))
        ∧ s2 ≠ [] ∧ (∀ c ∈ s2, (c == '\n') = false)
        ∧ xs = hs ++ ((xs.dropWhile (fun d => d == '#')).takeWhile isWS ++ (s2 ++ resume)))
     ∨ ((xs.dropWhile (fun d => d == '#')).dropWhile isWS = []
        ∧ (∃ e, s2 = [e] ∧ (e == '\n') = false ∧ isWS e = true
            ∧ (∀ c ∈ resume, c = '\n')
            ∧ (∃ pre, pre ≠ []
                ∧ (xs.dropWhile (fun d => d == '#')).takeWhile isWS = pre ++ e :: resume))
        ∧ xs = hs ++ (xs.dropWhile (fun d => d == '#')).takeWhile isWS)) := by
  rw [headSplit] at h
  split at h
  · cases h
  · rename_i hcond
    rw [Bool.not_eq_true] at hcond
    simp only [Bool.or_eq_false_iff] at hcond
    obtain ⟨⟨hk0, hk6⟩, hWne⟩ := hcond
    have hk0' : 1 ≤ (xs.takeWhile (fun d => d == '#')).length := by
      simp only [beq_eq_false_iff_ne, ne_eq] at hk0
      omega
    have hk6' : (xs.takeWhile (fun d => d == '#')).length ≤ 6 := by
      simp only [decide_eq_false_iff_not, not_lt] at hk6
      exact hk6
    have hWne' : (xs.dropWhile (fun d => d == '#')).takeWhile isWS ≠ [] := by
      simpa using hWne
    have hxsA : xs = xs.takeWhile (fun d => d == '#') ++ xs.dropWhile (fun d => d == '#') :=
      (List.takeWhile_append_dropWhile _ _).symm
    split at h
    · rename_i d r2' hdrop
      simp only [Option.some.injEq, Prod.mk.injEq] at h
      obtain ⟨rfl, rfl, rfl⟩ := h
      have hd : isWS d = false := dropWhile_head_false hdrop
      have hdnl : (d == '\n') = false := by
        have : d ≠ '\n' := by
          intro heq; rw [heq] at hd; simp [isWS] at hd
        simp [this]
      refine ⟨rfl, hk0', hk6', ?_, fun c hc => List.mem_takeWhile_imp hc, hWne',
        Or.inl ⟨d, r2', hdrop, hd, rfl, rfl, ?_, ?_, ?_⟩⟩
      · intro c hc
        have := List.mem_takeWhile_imp hc
        simpa using this
      · rw [List.takeWhile_cons, if_pos (by simp [hdnl])]
        simp
      · intro c hc
        have := List.mem_takeWhile_imp hc
        simpa using this
      · conv_lhs => rw [hxsA]
        congr 1
        conv_lhs => rw [← List.takeWhile_append_dropWhile (p := isWS)
          (l := xs.dropWhile (fun d => d == '#'))]
        rw [hdrop]
        congr 1
        exact (List.takeWhile_append_dropWhile _ _).symm
    · rename_i hdrop
      split at h
      · rename_i e suf hbt
        simp only [Option.some.injEq, Prod.mk.injEq] at h
        obtain ⟨rfl, rfl, rfl⟩ := h
        obtain ⟨henl, hsufnl, pre, hprene, hpre⟩ := headBacktrack_some_elim hbt
        have hews : isWS e = true := by
          have : e ∈ (xs.dropWhile (fun d => d == '#')).takeWhile isWS := by
            rw [hpre]; simp
          exact List.mem_takeWhile_imp this
        refine ⟨rfl, hk0', hk6', ?_, fun c hc => List.mem_takeWhile_imp hc, hWne',
          Or.inr ⟨hdrop, ⟨e, rfl, henl, hews, hsufnl, pre, hprene, hpre⟩, ?_⟩⟩
        · intro c hc
          have := List.mem_takeWhile_imp hc
          simpa using this
        · conv_lhs => rw [hxsA]
          congr 1
          conv_lhs => rw [← List.takeWhile_append_dropWhile (p := isWS)
            (l := xs.dropWhile (fun d => d == '#'))]
          rw [hdrop, List.append_nil]
      · cases h

theorem lastFlag_nil (b : Bool) : lastFlag b [] = b := rfl

theorem twws_headGo (n : Nat) : ∀ (b : Bool) (xs : List Char),
    (headGo n b xs).takeWhile isWS = xs.takeWhile isWS := by
  induction n with
  | zero => intro b xs; rfl
  | succ n ih =>
    intro b xs
    cases xs with
    | nil => rfl
    | cons c rest =>
      cases b with
      | false =>
        rw [headGo_cons_false, List.takeWhile_cons, List.takeWhile_cons, ih (c == '\n') rest]
      | true =>
        by_cases hc : c = '#'
        · cases hsp : headSplit (c :: rest) with
          | none =>
            rw [headGo_cons_none n hsp, List.takeWhile_cons, List.takeWhile_cons,
              ih (c == '\n') rest]
          | some t =>
            obtain ⟨hs, s2, resume⟩ := t
            obtain ⟨hhs, h1, h6, hall, _⟩ := headSplit_some_elim hsp
            rw [headGo_cons_some n hc hsp]
            cases hhs' : hs with
            | nil => rw [hhs'] at h1; simp at h1
            | cons d hs' =>
              have hd : d = '#' := hall d (by rw [hhs']; simp)
              simp only [List.cons_append, List.append_assoc]
              rw [List.takeWhile_cons, List.takeWhile_cons,
                if_neg (by rw [hd]; decide), if_neg (by rw [hc]; decide)]
        · rw [headGo_cons_not_hash n rest (by simp [hc]), List.takeWhile_cons,
            List.takeWhile_cons, ih (c == '\n') rest]

end DocxToMdx
